import Mathlib

/-!
Shallow embedding of `lrucache/lrucache.go` from cavaliercoder/go-common.

The Go implementation keeps a map from keys to heap-allocated entry nodes,
and threads every node through two intrusive doubly linked lists anchored by
two permanent sentinel nodes (`head`, `tail`):
  - the recency (LRU) list, most-recently-used nearest `head`;
  - the age (expiry) list, most-recently-inserted nearest `head`.

The embedding represents each list by the sequence of entry keys from the
`head` side to the `tail` side (sentinels excluded), and the map by an
association list from keys to entry payloads (value and expiry).  A pointer
to a node is modelled by `EntryRef`: the `head` or `tail` sentinel, the nil
pointer, or a node identified by its key (keys are unique in the structure,
so a key identifies a node).  Pointer surgery on the lists becomes removal
and consing of keys.  Go `time.Time` is modelled by `Option Int`: `none` is
the zero time (the "no expiry" sentinel tested by `IsZero`), and `time.Now()`
becomes an explicit `now : Int` argument to each operation that reads the
clock.  A Go `panic` is modelled by returning `none` from an `Option`-valued
function, so a public operation returns `none` exactly when the Go original
would panic.
-/

/-- Payload of one cache entry: the stored value and the absolute expiry
instant (`none` models the zero `time.Time`, i.e. no expiry). -/
structure EntryData where
  value : String
  expiry : Option Int
deriving DecidableEq

/-- A pointer to a list node: nil, one of the two sentinel nodes owned by the
cache, or the entry node stored in the index under the given key. -/
inductive EntryRef where
  | nilRef : EntryRef
  | headRef : EntryRef
  | tailRef : EntryRef
  | node : String → EntryRef
deriving DecidableEq

/-- Key field of the node a reference points at; the sentinels and the nil
pointer carry the zero string, like the Go zero value. -/
def EntryRef.key : EntryRef → String
  | .node k => k
  | _ => ""

/-- Go `(e *lruCacheEntry) IsExpired()`: false for the zero expiry time,
otherwise `time.Now().After(e.expiry)`, i.e. strictly after. -/
def EntryData.IsExpired (e : EntryData) (now : Int) : Bool :=
  match e.expiry with
  | none => false
  | some t => decide (t < now)

/-- Go map read `c.m[key]`: the payload stored under `key`, if any. -/
def mlookup : List (String × EntryData) → String → Option EntryData
  | [], _ => none
  | (k', d) :: rest, k => if k' = k then some d else mlookup rest k

/-- Go builtin `delete(c.m, key)`: remove the binding for `key`. -/
def mErase : List (String × EntryData) → String → List (String × EntryData)
  | [], _ => []
  | (k', d) :: rest, k => if k' = k then mErase rest k else (k', d) :: mErase rest k

/-- Go map write `c.m[key] = e`: bind `key` to `d`, replacing any previous
binding. -/
def mInsert (m : List (String × EntryData)) (k : String) (d : EntryData) :
    List (String × EntryData) :=
  (k, d) :: mErase m k

/-- Keys currently bound in the index. -/
def keysOf (m : List (String × EntryData)) : List String := m.map Prod.fst

/-- Unlinking a node from a doubly linked list, viewed on the key sequence:
remove the first occurrence of the key of the node. -/
def lerase : List String → String → List String
  | [], _ => []
  | x :: rest, k => if x = k then rest else x :: lerase rest k

/-- The cache state: configuration, the two lists (as key sequences from the
`head` side to the `tail` side) and the lookup index.  `maxSize` and `ttl`
are Go `int` / `time.Duration` fields, kept as integers. -/
structure LruCache where
  maxSize : Int
  ttl : Int
  lru : List String
  exp : List String
  m : List (String × EntryData)
deriving DecidableEq

/-- Go `New(maxSize, ttl)`: panics (modelled as `none`) when either argument
is negative, otherwise returns the empty cache whose sentinels point at each
other (both lists empty). -/
def New (maxSize ttl : Int) : Option LruCache :=
  if maxSize < 0 then none
  else if ttl < 0 then none
  else some { maxSize := maxSize, ttl := ttl, lru := [], exp := [], m := [] }

/-- Go `(c *lruCache) delist(e)`: panics (`none`) on nil or a sentinel,
otherwise unlinks the node from both the LRU and the expiry list. -/
def LruCache.delist (c : LruCache) (e : EntryRef) : Option LruCache :=
  match e with
  | .node k => some { c with lru := lerase c.lru k, exp := lerase c.exp k }
  | _ => none

/-- Go `(c *lruCache) delete(e)`: delist the node, then remove `e.key` from
the index. -/
def LruCache.delete (c : LruCache) (e : EntryRef) : Option LruCache :=
  match c.delist e with
  | none => none
  | some c' => some { c' with m := mErase c'.m e.key }

/-- Go `c.tail.expPrev`: the node on the `head` side of the `tail` sentinel
in the expiry list, which is the `head` sentinel itself when the list is
empty. -/
def LruCache.tailExpPrev (c : LruCache) : EntryRef :=
  match c.exp.getLast? with
  | some k => .node k
  | none => .headRef

/-- Go `c.tail.lruPrev`: the node on the `head` side of the `tail` sentinel
in the recency list, which is the `head` sentinel itself when the list is
empty. -/
def LruCache.tailLruPrev (c : LruCache) : EntryRef :=
  match c.lru.getLast? with
  | some k => .node k
  | none => .headRef

/-- Dereference an `EntryRef` and call `IsExpired` on the node it points at.
The sentinels carry the zero expiry time, so they are never expired; a node
reference is resolved through the index, which holds every node of the
lists in the states the cache actually reaches. -/
def LruCache.refExpired (c : LruCache) (e : EntryRef) (now : Int) : Bool :=
  match e with
  | .node k =>
    match mlookup c.m k with
    | some d => d.IsExpired now
    | none => false
  | _ => false

/-- Go `(c *lruCache) trim()`: no-op unless `maxSize` is positive and the
index has grown beyond it; then evict the oldest-inserted entry if it is
expired, else the least-recently-used entry. -/
def LruCache.trim (c : LruCache) (now : Int) : Option LruCache :=
  if c.maxSize ≤ 0 ∨ (c.m.length : Int) ≤ c.maxSize then some c
  else if c.refExpired c.tailExpPrev now then c.delete c.tailExpPrev
  else c.delete c.tailLruPrev

/-- Go `(c *lruCache) Put(key, value)`: delete any existing entry for the
key, create a fresh entry (with expiry `now + ttl` when `ttl > 0`) linked at
the head of both lists and stored in the index, then trim. -/
def LruCache.Put (c : LruCache) (key value : String) (now : Int) : Option LruCache :=
  let step1 : Option LruCache :=
    match mlookup c.m key with
    | some _ => c.delete (.node key)
    | none => some c
  match step1 with
  | none => none
  | some c1 =>
    let e : EntryData :=
      { value := value, expiry := if 0 < c1.ttl then some (now + c1.ttl) else none }
    let c2 : LruCache :=
      { c1 with
        m := mInsert c1.m key e,
        lru := key :: c1.lru,
        exp := key :: c1.exp }
    c2.trim now

/-- Go `(c *lruCache) Get(key)`: not-found on a missing key; on an expired
entry, delete it and report not-found; otherwise relink the entry at the
head of the recency list (the expiry list is untouched) and return its
value. -/
def LruCache.Get (c : LruCache) (key : String) (now : Int) :
    Option (LruCache × String × Bool) :=
  match mlookup c.m key with
  | none => some (c, "", false)
  | some e =>
    if e.IsExpired now then
      match c.delete (.node key) with
      | none => none
      | some c' => some (c', "", false)
    else
      some ({ c with lru := key :: lerase c.lru key }, e.value, true)

/-- Go `(c *lruCache) Delete(key)`: false on a missing key, otherwise delete
the entry (with no expiry check) and return true. -/
def LruCache.Delete (c : LruCache) (key : String) : Option (LruCache × Bool) :=
  match mlookup c.m key with
  | none => some (c, false)
  | some _ =>
    match c.delete (.node key) with
    | none => none
    | some c' => some (c', true)

/-- Go `(c *lruCache) Len()`: the size of the index. -/
def LruCache.Len (c : LruCache) : Nat := c.m.length

/-- States reachable from `New` by a sequence of public operations, each
invoked at an arbitrary clock reading. -/
inductive Reachable : LruCache → Prop where
  | new : ∀ (ms ttl : Int) (c : LruCache), New ms ttl = some c → Reachable c
  | put : ∀ (c : LruCache) (k v : String) (now : Int) (c' : LruCache),
      Reachable c → c.Put k v now = some c' → Reachable c'
  | get : ∀ (c : LruCache) (k : String) (now : Int) (c' : LruCache) (v : String) (ok : Bool),
      Reachable c → c.Get k now = some (c', v, ok) → Reachable c'
  | del : ∀ (c : LruCache) (k : String) (c' : LruCache) (ok : Bool),
      Reachable c → c.Delete k = some (c', ok) → Reachable c'

/-- Perform a Get for each key of the given list in order, threading the
cache state and discarding the returned values (a Get on a reachable state
never returns `none`, so the fallback branch is inert). -/
def getAll (c : LruCache) (ks : List String) (now : Int) : LruCache :=
  match ks with
  | [] => c
  | k :: rest =>
    match c.Get k now with
    | some (c', _, _) => getAll c' rest now
    | none => c

/-- Iterated unlinking: remove each key of `ks`, in order, from the key
sequence `l`.  This is the shape of the recency list left behind after a
sequence of removals. -/
def leraseAll : List String → List String → List String
  | l, [] => l
  | l, k :: rest => leraseAll (lerase l k) rest

/-- Perform a Put for each key of the given list in order (storing the key
as its own value, as the repository test does), threading the cache state
(a Put on a reachable state never returns `none`, so the fallback branch is
inert). -/
def putAll (c : LruCache) (ks : List String) (now : Int) : LruCache :=
  match ks with
  | [] => c
  | k :: rest =>
    match c.Put k k now with
    | some c' => putAll c' rest now
    | none => c

/-- Concrete state: the cache returned by `New 2 0`. -/
def cache0 : LruCache := { maxSize := 2, ttl := 0, lru := [], exp := [], m := [] }

/-- Concrete state: `cache0` after `Put "a" "1"`. -/
def cache1 : LruCache :=
  { maxSize := 2, ttl := 0, lru := ["a"], exp := ["a"],
    m := [("a", { value := "1", expiry := none })] }

/-- Concrete state: `cache1` after `Put "b" "2"`. -/
def cache2 : LruCache :=
  { maxSize := 2, ttl := 0, lru := ["b", "a"], exp := ["b", "a"],
    m := [("b", { value := "2", expiry := none }),
          ("a", { value := "1", expiry := none })] }

/-- Concrete state: the cache returned by `New 0 1` (unbounded count, ttl of
one time unit). -/
def cacheT0 : LruCache := { maxSize := 0, ttl := 1, lru := [], exp := [], m := [] }

/-- Concrete state: `cacheT0` after `Put "a" "x"` at instant 0; the entry
carries expiry instant 1. -/
def cacheT : LruCache :=
  { maxSize := 0, ttl := 1, lru := ["a"], exp := ["a"],
    m := [("a", { value := "x", expiry := some 1 })] }

/-! ### Basic lemmas about the index and list primitives -/

theorem mlookup_eq_none_iff (m : List (String × EntryData)) (k : String) :
    mlookup m k = none ↔ k ∉ keysOf m := by
  induction m with
  | nil => simp [mlookup, keysOf]
  | cons p rest ih =>
    obtain ⟨k', d⟩ := p
    by_cases h : k' = k
    · subst h
      simp [mlookup, keysOf]
    · simp [mlookup, keysOf, h, ih]
      tauto

theorem mlookup_isSome_iff (m : List (String × EntryData)) (k : String) :
    (mlookup m k).isSome ↔ k ∈ keysOf m := by
  rcases h : mlookup m k with _ | d
  · simpa using (mlookup_eq_none_iff m k).mp h
  · simp only [Option.isSome_some, true_iff]
    by_contra hk
    rw [← mlookup_eq_none_iff m k] at hk
    rw [h] at hk
    exact Option.noConfusion hk

theorem mem_keysOf_of_mlookup {m : List (String × EntryData)} {k : String} {d : EntryData}
    (h : mlookup m k = some d) : k ∈ keysOf m := by
  rw [← mlookup_isSome_iff, h]
  rfl

theorem mlookup_mErase_self (m : List (String × EntryData)) (k : String) :
    mlookup (mErase m k) k = none := by
  induction m with
  | nil => rfl
  | cons p rest ih =>
    obtain ⟨k', d⟩ := p
    by_cases h : k' = k
    · simpa [mErase, h]
    · simpa [mErase, mlookup, h]

theorem mlookup_mErase_ne (m : List (String × EntryData)) (k k' : String) (h : k' ≠ k) :
    mlookup (mErase m k) k' = mlookup m k' := by
  induction m with
  | nil => rfl
  | cons p rest ih =>
    obtain ⟨a, d⟩ := p
    by_cases h2 : a = k
    · subst h2
      simp [mErase, mlookup, Ne.symm h, ih]
    · by_cases h3 : a = k'
      · simp [mErase, mlookup, h2, h3, h, Ne.symm h]
      · simp [mErase, mlookup, h2, h3, ih]

theorem mem_keysOf_mErase (m : List (String × EntryData)) (k k' : String) :
    k' ∈ keysOf (mErase m k) ↔ k' ∈ keysOf m ∧ k' ≠ k := by
  induction m with
  | nil => simp [mErase, keysOf]
  | cons p rest ih =>
    obtain ⟨a, d⟩ := p
    by_cases h : a = k
    · rw [show mErase ((a, d) :: rest) k = mErase rest k from by simp [mErase, h], ih]
      subst h
      simp only [keysOf, List.map_cons, List.mem_cons]
      constructor
      · rintro ⟨h1, h2⟩
        exact ⟨Or.inr h1, h2⟩
      · rintro ⟨h1 | h1, h2⟩
        · exact absurd h1 h2
        · exact ⟨h1, h2⟩
    · rw [show mErase ((a, d) :: rest) k = (a, d) :: mErase rest k from by simp [mErase, h]]
      simp only [keysOf, List.map_cons, List.mem_cons] at ih ⊢
      rw [ih]
      constructor
      · rintro (h1 | ⟨h1, h2⟩)
        · exact ⟨Or.inl h1, fun he => h (h1.symm.trans he)⟩
        · exact ⟨Or.inr h1, h2⟩
      · rintro ⟨h1 | h1, h2⟩
        · exact Or.inl h1
        · exact Or.inr ⟨h1, h2⟩

theorem keysOf_mErase_nodup {m : List (String × EntryData)} (k : String)
    (h : (keysOf m).Nodup) : (keysOf (mErase m k)).Nodup := by
  induction m with
  | nil => simp [mErase, keysOf]
  | cons p rest ih =>
    obtain ⟨a, d⟩ := p
    simp only [keysOf, List.map_cons, List.nodup_cons] at h
    by_cases h2 : a = k
    · rw [show mErase ((a, d) :: rest) k = mErase rest k from by simp [mErase, h2]]
      exact ih h.2
    · rw [show mErase ((a, d) :: rest) k = (a, d) :: mErase rest k from by simp [mErase, h2]]
      simp only [keysOf, List.map_cons, List.nodup_cons]
      refine ⟨fun hmem => ?_, ih h.2⟩
      exact h.1 ((mem_keysOf_mErase rest k a).mp hmem).1

theorem mErase_eq_self {m : List (String × EntryData)} {k : String}
    (h : k ∉ keysOf m) : mErase m k = m := by
  induction m with
  | nil => rfl
  | cons p rest ih =>
    obtain ⟨a, d⟩ := p
    simp only [keysOf, List.map_cons, List.mem_cons] at h
    push_neg at h
    have hne : ¬a = k := fun he => h.1 he.symm
    rw [show mErase ((a, d) :: rest) k = (a, d) :: mErase rest k from
      by simp [mErase, hne], ih h.2]

theorem mErase_length_succ {m : List (String × EntryData)} {k : String}
    (hnd : (keysOf m).Nodup) (hmem : k ∈ keysOf m) :
    (mErase m k).length + 1 = m.length := by
  induction m with
  | nil => simp [keysOf] at hmem
  | cons p rest ih =>
    obtain ⟨k', d⟩ := p
    simp only [keysOf, List.map_cons, List.nodup_cons] at hnd
    simp only [keysOf, List.map_cons, List.mem_cons] at hmem
    by_cases h : k' = k
    · subst h
      rw [mErase, if_pos rfl, mErase_eq_self hnd.1]
      simp
    · rcases hmem with hmem | hmem
      · exact absurd hmem.symm h
      · simp only [mErase, if_neg h, List.length_cons]
        rw [← ih hnd.2 hmem]

theorem mErase_length_le (m : List (String × EntryData)) (k : String) :
    (mErase m k).length ≤ m.length := by
  induction m with
  | nil => simp [mErase]
  | cons p rest ih =>
    obtain ⟨k', d⟩ := p
    by_cases h : k' = k
    · simp only [mErase, if_pos h]
      exact Nat.le_succ_of_le ih
    · simp only [mErase, if_neg h, List.length_cons]
      exact Nat.succ_le_succ ih

theorem mem_lerase {l : List String} {k x : String} (hnd : l.Nodup) :
    x ∈ lerase l k ↔ x ∈ l ∧ x ≠ k := by
  induction l with
  | nil => simp [lerase]
  | cons y rest ih =>
    simp only [List.nodup_cons] at hnd
    by_cases h : y = k
    · subst h
      simp only [lerase, if_pos rfl, List.mem_cons]
      constructor
      · intro hx
        exact ⟨Or.inr hx, fun he => hnd.1 (he ▸ hx)⟩
      · rintro ⟨hx | hx, hne⟩
        · exact absurd hx hne
        · exact hx
    · simp only [lerase, if_neg h, List.mem_cons, ih hnd.2]
      constructor
      · rintro (hx | ⟨hx, hne⟩)
        · exact ⟨Or.inl hx, fun he => h (hx ▸ he)⟩
        · exact ⟨Or.inr hx, hne⟩
      · rintro ⟨hx | hx, hne⟩
        · exact Or.inl hx
        · exact Or.inr ⟨hx, hne⟩

theorem lerase_nodup {l : List String} (k : String) (hnd : l.Nodup) :
    (lerase l k).Nodup := by
  induction l with
  | nil => simp [lerase]
  | cons y rest ih =>
    simp only [List.nodup_cons] at hnd
    by_cases h : y = k
    · simpa [lerase, h] using hnd.2
    · simp only [lerase, if_neg h, List.nodup_cons]
      refine ⟨fun hmem => ?_, ih hnd.2⟩
      exact hnd.1 ((mem_lerase hnd.2).mp hmem).1

theorem lerase_eq_self {l : List String} {k : String} (h : k ∉ l) : lerase l k = l := by
  induction l with
  | nil => rfl
  | cons y rest ih =>
    simp only [List.mem_cons] at h
    push_neg at h
    simp [lerase, Ne.symm h.1, ih h.2]

theorem mlookup_mInsert_self (m : List (String × EntryData)) (k : String) (d : EntryData) :
    mlookup (mInsert m k d) k = some d := by
  simp [mInsert, mlookup]

theorem mlookup_mInsert_ne (m : List (String × EntryData)) (k k' : String) (d : EntryData)
    (h : k' ≠ k) : mlookup (mInsert m k d) k' = mlookup m k' := by
  simp only [mInsert, mlookup, if_neg (Ne.symm h)]
  exact mlookup_mErase_ne m k k' h

theorem mem_keysOf_mInsert (m : List (String × EntryData)) (k k' : String) (d : EntryData) :
    k' ∈ keysOf (mInsert m k d) ↔ k' = k ∨ (k' ∈ keysOf m ∧ k' ≠ k) := by
  simp only [mInsert, keysOf, List.map_cons, List.mem_cons]
  constructor
  · rintro (h | h)
    · exact Or.inl h
    · exact Or.inr ((mem_keysOf_mErase m k k').mp h)
  · rintro (h | h)
    · exact Or.inl h
    · exact Or.inr ((mem_keysOf_mErase m k k').mpr h)

/-! ### Structural invariant of the cache

The well-formedness predicate records how the Go structure ties the index
and the two lists together: every node is reachable from the sentinels in
both lists exactly once, and the reachable nodes are exactly the ones held
by the index (spec invariants I1 and I2), together with the sign facts
established by `New` and the fact that a zero ttl never assigns an expiry
instant.  The size bound (spec invariant I3) is tracked separately as
`SizeOk` because it is temporarily broken in the middle of `Put`, between
the insertion and the trim. -/

structure WF (c : LruCache) : Prop where
  lruNodup : c.lru.Nodup
  expNodup : c.exp.Nodup
  mNodup : (keysOf c.m).Nodup
  lruMem : ∀ k, k ∈ c.lru ↔ k ∈ keysOf c.m
  expMem : ∀ k, k ∈ c.exp ↔ k ∈ keysOf c.m
  maxNonneg : 0 ≤ c.maxSize
  ttlNonneg : 0 ≤ c.ttl
  ttlZeroNoExpiry : c.ttl = 0 → ∀ k d, mlookup c.m k = some d → d.expiry = none

/-- Spec invariant I3: when `maxSize` is positive the index never holds more
than `maxSize` entries. -/
def SizeOk (c : LruCache) : Prop := 0 < c.maxSize → (c.m.length : Int) ≤ c.maxSize

/-- Computation of the internal delete on a node reference: it always
succeeds and erases the key from both lists and the index. -/
theorem delete_node_eq (c : LruCache) (k : String) :
    c.delete (.node k) =
      some { maxSize := c.maxSize, ttl := c.ttl, lru := lerase c.lru k,
             exp := lerase c.exp k, m := mErase c.m k } := rfl

/-- Erasing one key preserves the structural invariant. -/
theorem WF_erase {c : LruCache} (k : String) (h : WF c) :
    WF { maxSize := c.maxSize, ttl := c.ttl, lru := lerase c.lru k,
         exp := lerase c.exp k, m := mErase c.m k } := by
  refine ⟨lerase_nodup k h.lruNodup, lerase_nodup k h.expNodup,
    keysOf_mErase_nodup k h.mNodup, ?_, ?_, h.maxNonneg, h.ttlNonneg, ?_⟩
  · intro x
    rw [mem_lerase h.lruNodup, mem_keysOf_mErase, h.lruMem x]
  · intro x
    rw [mem_lerase h.expNodup, mem_keysOf_mErase, h.expMem x]
  · intro httl k' d hl
    by_cases hkk : k' = k
    · rw [hkk, mlookup_mErase_self] at hl
      exact Option.noConfusion hl
    · rw [mlookup_mErase_ne c.m k k' hkk] at hl
      exact h.ttlZeroNoExpiry httl k' d hl

/-- A nonempty index forces both lists to be nonempty (via I1). -/
theorem exp_ne_nil_of_m_ne_nil {c : LruCache} (h : WF c) (hm : c.m ≠ []) :
    c.exp ≠ [] := by
  intro hexp
  obtain ⟨p, rest, hcons⟩ := List.exists_cons_of_ne_nil hm
  have hmem : p.1 ∈ keysOf c.m := by
    rw [hcons]
    simp [keysOf]
  have := (h.expMem p.1).mpr hmem
  rw [hexp] at this
  exact List.not_mem_nil p.1 this

theorem lru_ne_nil_of_m_ne_nil {c : LruCache} (h : WF c) (hm : c.m ≠ []) :
    c.lru ≠ [] := by
  intro hlru
  obtain ⟨p, rest, hcons⟩ := List.exists_cons_of_ne_nil hm
  have hmem : p.1 ∈ keysOf c.m := by
    rw [hcons]
    simp [keysOf]
  have := (h.lruMem p.1).mpr hmem
  rw [hlru] at this
  exact List.not_mem_nil p.1 this

/-- When the trim guard fires, `trim` always evicts exactly one entry of the
index, and the invariants hold afterwards. -/
theorem trim_total {c : LruCache} (now : Int) (h : WF c)
    (hlen : 0 < c.maxSize → (c.m.length : Int) ≤ c.maxSize + 1) :
    ∃ c', c.trim now = some c' ∧ WF c' ∧ SizeOk c' ∧
      c'.maxSize = c.maxSize ∧ c'.ttl = c.ttl := by
  by_cases hguard : c.maxSize ≤ 0 ∨ (c.m.length : Int) ≤ c.maxSize
  · refine ⟨c, ?_, h, ?_, rfl, rfl⟩
    · rw [LruCache.trim, if_pos hguard]
    · intro hpos
      rcases hguard with hguard | hguard
      · exact absurd hpos (not_lt.mpr hguard)
      · exact hguard
  · push_neg at hguard
    obtain ⟨hpos, hgt⟩ := hguard
    have hlen' : (c.m.length : Int) = c.maxSize + 1 := le_antisymm (hlen hpos) (by omega)
    have hmne : c.m ≠ [] := by
      intro hnil
      rw [hnil] at hlen'
      simp at hlen'
      omega
    have hexpne := exp_ne_nil_of_m_ne_nil h hmne
    have hlrune := lru_ne_nil_of_m_ne_nil h hmne
    obtain ⟨v, hv⟩ : ∃ v, c.exp.getLast? = some v :=
      ⟨c.exp.getLast hexpne, List.getLast?_eq_getLast_of_ne_nil hexpne⟩
    obtain ⟨w, hw⟩ : ∃ w, c.lru.getLast? = some w :=
      ⟨c.lru.getLast hlrune, List.getLast?_eq_getLast_of_ne_nil hlrune⟩
    have hvmem : v ∈ keysOf c.m := by
      rw [← h.expMem v]
      have := @List.mem_getLast?_eq_getLast String c.exp v hv
      obtain ⟨hne, heq⟩ := this
      exact heq ▸ List.getLast_mem hne
    have hwmem : w ∈ keysOf c.m := by
      rw [← h.lruMem w]
      have := @List.mem_getLast?_eq_getLast String c.lru w hw
      obtain ⟨hne, heq⟩ := this
      exact heq ▸ List.getLast_mem hne
    rw [LruCache.trim, if_neg (by push_neg; exact ⟨hpos, hgt⟩)]
    have hvtail : c.tailExpPrev = .node v := by
      rw [LruCache.tailExpPrev, hv]
    have hwtail : c.tailLruPrev = .node w := by
      rw [LruCache.tailLruPrev, hw]
    by_cases hexp : c.refExpired c.tailExpPrev now = true
    · rw [if_pos hexp, hvtail, delete_node_eq]
      refine ⟨_, rfl, WF_erase v h, ?_, rfl, rfl⟩
      intro _
      have := mErase_length_succ h.mNodup hvmem
      simp only []
      omega
    · rw [if_neg hexp, hwtail, delete_node_eq]
      refine ⟨_, rfl, WF_erase w h, ?_, rfl, rfl⟩
      intro _
      have := mErase_length_succ h.mNodup hwmem
      simp only []
      omega

/-- Size of the index after a fresh insertion. -/
theorem mInsert_length {m : List (String × EntryData)} {k : String} (e : EntryData)
    (hk : k ∉ keysOf m) : (mInsert m k e).length = m.length + 1 := by
  simp [mInsert, mErase_eq_self hk]

/-- Linking a fresh entry at the head of both lists and storing it in the
index preserves the structural invariant. -/
theorem WF_insert {c1 : LruCache} (h : WF c1) (k : String) (e : EntryData)
    (hk : k ∉ keysOf c1.m) (he : c1.ttl = 0 → e.expiry = none) :
    WF { maxSize := c1.maxSize, ttl := c1.ttl, lru := k :: c1.lru,
         exp := k :: c1.exp, m := mInsert c1.m k e } := by
  have hklru : k ∉ c1.lru := fun hmem => hk ((h.lruMem k).mp hmem)
  have hkexp : k ∉ c1.exp := fun hmem => hk ((h.expMem k).mp hmem)
  have hkerase : k ∉ keysOf (mErase c1.m k) := by
    rw [mem_keysOf_mErase]
    rintro ⟨_, hne⟩
    exact hne rfl
  refine ⟨List.nodup_cons.mpr ⟨hklru, h.lruNodup⟩,
    List.nodup_cons.mpr ⟨hkexp, h.expNodup⟩, ?_, ?_, ?_, h.maxNonneg, h.ttlNonneg, ?_⟩
  · rw [show keysOf (mInsert c1.m k e) = k :: keysOf (mErase c1.m k) from rfl]
    exact List.nodup_cons.mpr ⟨hkerase, keysOf_mErase_nodup k h.mNodup⟩
  · intro x
    simp only [List.mem_cons, mem_keysOf_mInsert]
    by_cases hx : x = k
    · simp [hx]
    · simp only [hx, false_or]
      rw [h.lruMem x]
      exact ⟨fun hm => ⟨hm, hx⟩, fun hm => hm.1⟩
  · intro x
    simp only [List.mem_cons, mem_keysOf_mInsert]
    by_cases hx : x = k
    · simp [hx]
    · simp only [hx, false_or]
      rw [h.expMem x]
      exact ⟨fun hm => ⟨hm, hx⟩, fun hm => hm.1⟩
  · intro httl k' d hl
    by_cases hx : k' = k
    · subst hx
      rw [mlookup_mInsert_self] at hl
      cases hl
      exact he httl
    · rw [mlookup_mInsert_ne c1.m k k' e hx] at hl
      exact h.ttlZeroNoExpiry httl k' d hl

/-- The public Put never panics and preserves the invariants and the
configuration. -/
theorem Put_total {c : LruCache} (h : WF c) (hsz : SizeOk c) (k v : String) (now : Int) :
    ∃ c', c.Put k v now = some c' ∧ WF c' ∧ SizeOk c' ∧
      c'.maxSize = c.maxSize ∧ c'.ttl = c.ttl := by
  rcases hlk : mlookup c.m k with _ | d
  · have hk : k ∉ keysOf c.m := (mlookup_eq_none_iff c.m k).mp hlk
    have hwf2 := WF_insert h k
      { value := v, expiry := if 0 < c.ttl then some (now + c.ttl) else none } hk
      (by
        intro httl
        simp [httl])
    have hlen2 : 0 < c.maxSize →
        ((mInsert c.m k
          { value := v,
            expiry := if 0 < c.ttl then some (now + c.ttl) else none }).length : Int) ≤
          c.maxSize + 1 := by
      intro hpos
      rw [mInsert_length _ hk]
      have := hsz hpos
      push_cast
      omega
    obtain ⟨c', hc', hwf', hsz', hmax', httl'⟩ := trim_total now hwf2 hlen2
    refine ⟨c', ?_, hwf', hsz', hmax', httl'⟩
    simp only [LruCache.Put, hlk]
    exact hc'
  · have hkmem : k ∈ keysOf c.m := mem_keysOf_of_mlookup hlk
    have hwf1 := WF_erase k h
    have hk1 : k ∉ keysOf (mErase c.m k) := by
      rw [mem_keysOf_mErase]
      rintro ⟨_, hne⟩
      exact hne rfl
    have hwf2 := WF_insert hwf1 k
      { value := v, expiry := if 0 < c.ttl then some (now + c.ttl) else none } hk1
      (by
        intro httl
        have h0 : c.ttl = 0 := httl
        simp [h0])
    have hlen2 : 0 < c.maxSize →
        ((mInsert (mErase c.m k) k
          { value := v,
            expiry := if 0 < c.ttl then some (now + c.ttl) else none }).length : Int) ≤
          c.maxSize + 1 := by
      intro hpos
      rw [mInsert_length _ hk1]
      have h1 := mErase_length_le c.m k
      have h2 := hsz hpos
      push_cast
      omega
    obtain ⟨c', hc', hwf', hsz', hmax', httl'⟩ := trim_total now hwf2 hlen2
    refine ⟨c', ?_, hwf', hsz', by rw [hmax'], by rw [httl']⟩
    simp only [LruCache.Put, hlk, LruCache.delete, LruCache.delist, EntryRef.key]
    exact hc'

/-- The public Get never panics and preserves the invariants and the
configuration. -/
theorem Get_total {c : LruCache} (h : WF c) (hsz : SizeOk c) (k : String) (now : Int) :
    ∃ c' val ok, c.Get k now = some (c', val, ok) ∧ WF c' ∧ SizeOk c' ∧
      c'.maxSize = c.maxSize ∧ c'.ttl = c.ttl := by
  rcases hlk : mlookup c.m k with _ | d
  · exact ⟨c, "", false, by simp only [LruCache.Get, hlk], h, hsz, rfl, rfl⟩
  · by_cases hex : d.IsExpired now = true
    · refine ⟨_, "", false, ?_, WF_erase k h, ?_, rfl, rfl⟩
      · simp only [LruCache.Get, hlk, hex, if_pos, LruCache.delete, LruCache.delist,
          EntryRef.key]
      · intro hpos
        have h1 := mErase_length_le c.m k
        have h2 := hsz hpos
        simp only []
        omega
    · have hkmem : k ∈ keysOf c.m := mem_keysOf_of_mlookup hlk
      have hklru : k ∈ c.lru := (h.lruMem k).mpr hkmem
      refine ⟨{ c with lru := k :: lerase c.lru k }, d.value, true, ?_, ?_, hsz, rfl, rfl⟩
      · simp only [LruCache.Get, hlk, hex, if_neg, Bool.false_eq_true, not_false_iff]
      · have hknotin : k ∉ lerase c.lru k := by
          rw [mem_lerase h.lruNodup]
          rintro ⟨_, hne⟩
          exact hne rfl
        refine ⟨List.nodup_cons.mpr ⟨hknotin, lerase_nodup k h.lruNodup⟩,
          h.expNodup, h.mNodup, ?_, h.expMem, h.maxNonneg, h.ttlNonneg,
          h.ttlZeroNoExpiry⟩
        intro x
        simp only [List.mem_cons, mem_lerase h.lruNodup]
        by_cases hx : x = k
        · subst hx
          simp [hkmem]
        · simp only [hx, false_or]
          rw [h.lruMem x]
          exact ⟨fun hm => hm.1, fun hm => ⟨hm, hx⟩⟩

/-- The public Delete never panics and preserves the invariants and the
configuration. -/
theorem Delete_total {c : LruCache} (h : WF c) (hsz : SizeOk c) (k : String) :
    ∃ c' ok, c.Delete k = some (c', ok) ∧ WF c' ∧ SizeOk c' ∧
      c'.maxSize = c.maxSize ∧ c'.ttl = c.ttl := by
  rcases hlk : mlookup c.m k with _ | d
  · exact ⟨c, false, by simp only [LruCache.Delete, hlk], h, hsz, rfl, rfl⟩
  · refine ⟨_, true, ?_, WF_erase k h, ?_, rfl, rfl⟩
    · simp only [LruCache.Delete, hlk, LruCache.delete, LruCache.delist, EntryRef.key]
    · intro hpos
      have h1 := mErase_length_le c.m k
      have h2 := hsz hpos
      simp only []
      omega

/-- Construction establishes the invariants. -/
theorem New_wf {ms ttl : Int} {c : LruCache} (h : New ms ttl = some c) :
    WF c ∧ SizeOk c ∧ c.maxSize = ms ∧ c.ttl = ttl := by
  rw [New] at h
  by_cases h1 : ms < 0
  · rw [if_pos h1] at h
    exact Option.noConfusion h
  · rw [if_neg h1] at h
    by_cases h2 : ttl < 0
    · rw [if_pos h2] at h
      exact Option.noConfusion h
    · rw [if_neg h2] at h
      cases h
      refine ⟨⟨List.nodup_nil, List.nodup_nil, List.nodup_nil, ?_, ?_, not_lt.mp h1,
        not_lt.mp h2, ?_⟩, ?_, rfl, rfl⟩
      · intro x
        simp [keysOf]
      · intro x
        simp [keysOf]
      · intro _ k d hl
        exact Option.noConfusion hl
      · intro _
        show ((List.length [] : Int) ≤ ms)
        simp
        exact not_lt.mp h1

/-- Every reachable state satisfies the structural invariant and the size
bound. -/
theorem reachable_wf {c : LruCache} (h : Reachable c) : WF c ∧ SizeOk c := by
  induction h with
  | new ms ttl c hnew =>
    obtain ⟨hwf, hsz, _, _⟩ := New_wf hnew
    exact ⟨hwf, hsz⟩
  | put c k v now c' hre hput ih =>
    obtain ⟨c'', hc'', hwf, hsz, _, _⟩ := Put_total ih.1 ih.2 k v now
    rw [hput] at hc''
    cases hc''
    exact ⟨hwf, hsz⟩
  | get c k now c' v ok hre hget ih =>
    obtain ⟨c'', val, ok', hc'', hwf, hsz, _, _⟩ := Get_total ih.1 ih.2 k now
    rw [hget] at hc''
    cases hc''
    exact ⟨hwf, hsz⟩
  | del c k c' ok hre hdel ih =>
    obtain ⟨c'', ok', hc'', hwf, hsz, _, _⟩ := Delete_total ih.1 ih.2 k
    rw [hdel] at hc''
    cases hc''
    exact ⟨hwf, hsz⟩

/-! ### Concrete reachable states used by the witnesses -/

theorem cache0_reachable : Reachable cache0 := Reachable.new 2 0 cache0 rfl

theorem cache1_reachable : Reachable cache1 :=
  Reachable.put cache0 "a" "1" 0 cache1 cache0_reachable rfl

theorem cache2_reachable : Reachable cache2 :=
  Reachable.put cache1 "b" "2" 0 cache2 cache1_reachable rfl

theorem cacheT_reachable : Reachable cacheT :=
  Reachable.put cacheT0 "a" "x" 0 cacheT (Reachable.new 0 1 cacheT0 rfl) rfl

/-! ### Auxiliary computation lemmas -/

/-- When the guard holds, `trim` does nothing. -/
theorem trim_noop {c : LruCache} (now : Int)
    (h : c.maxSize ≤ 0 ∨ (c.m.length : Int) ≤ c.maxSize) : c.trim now = some c := by
  rw [LruCache.trim, if_pos h]

/-- The last element of a list survives consing at the front. -/
theorem getLast?_cons_eq {l : List String} {a x : String} (h : l.getLast? = some a) :
    (x :: l).getLast? = some a := by
  cases l with
  | nil => exact Option.noConfusion h
  | cons b t =>
    rw [List.getLast?_cons_cons]
    exact h

/-- C1: for every sequence of public operations on a cache constructed with
`maxSize > 0`, after each operation returns, the number of entries in the
lookup index (the value returned by Len) never exceeds `maxSize`. -/
theorem len_le_maxSize {c : LruCache} (h : Reachable c) (hpos : 0 < c.maxSize) :
    (c.Len : Int) ≤ c.maxSize :=
  (reachable_wf h).2 hpos

theorem len_le_maxSize_witness :
    Reachable cache1 ∧ 0 < cache1.maxSize ∧ (cache1.Len : Int) ≤ cache1.maxSize :=
  ⟨cache1_reachable, by decide, len_le_maxSize cache1_reachable (by decide)⟩

/-- C3: after every public operation completes, the set of keys in the
lookup index equals exactly the set of entries reachable by walking either
the recency list or the age list from head to tail (excluding sentinels),
and each entry appears exactly once in the recency list and exactly once in
the age list. -/
theorem lists_match_index {c : LruCache} (h : Reachable c) :
    c.lru.Nodup ∧ c.exp.Nodup ∧
    (∀ k, k ∈ c.lru ↔ k ∈ keysOf c.m) ∧ (∀ k, k ∈ c.exp ↔ k ∈ keysOf c.m) := by
  obtain ⟨hwf, _⟩ := reachable_wf h
  exact ⟨hwf.lruNodup, hwf.expNodup, hwf.lruMem, hwf.expMem⟩

theorem lists_match_index_witness :
    Reachable cache2 ∧
    (cache2.lru.Nodup ∧ cache2.exp.Nodup ∧
      (∀ k, k ∈ cache2.lru ↔ k ∈ keysOf cache2.m) ∧
      (∀ k, k ∈ cache2.exp ↔ k ∈ keysOf cache2.m)) :=
  ⟨cache2_reachable, lists_match_index cache2_reachable⟩

/-- C10: the failure branch of the internal delist helper (unlinking nil or
a sentinel) is unreachable from any sequence of public operations: in the
embedding a Go panic is `none`, and every public operation on a reachable
state returns `some`.  The lookup index maps keys to entry payloads only, so
the node reference it yields is always `EntryRef.node`, never a sentinel;
the only delete call that could see a sentinel is the one made by trim on
the tail-adjacent node, and the trim guard together with invariant I1 keeps
both lists nonempty there. -/
theorem ops_never_panic {c : LruCache} (h : Reachable c) :
    (∀ k v : String, ∀ now : Int, (c.Put k v now).isSome) ∧
    (∀ k : String, ∀ now : Int, (c.Get k now).isSome) ∧
    (∀ k : String, (c.Delete k).isSome) := by
  obtain ⟨hwf, hsz⟩ := reachable_wf h
  refine ⟨?_, ?_, ?_⟩
  · intro k v now
    obtain ⟨c', hc', _⟩ := Put_total hwf hsz k v now
    rw [hc']
    rfl
  · intro k now
    obtain ⟨c', val, ok, hc', _⟩ := Get_total hwf hsz k now
    rw [hc']
    rfl
  · intro k
    obtain ⟨c', ok, hc', _⟩ := Delete_total hwf hsz k
    rw [hc']
    rfl

theorem ops_never_panic_witness :
    Reachable cache1 ∧ (cache1.Put "x" "y" 3).isSome ∧ (cache1.Get "a" 3).isSome ∧
    (cache1.Delete "a").isSome :=
  ⟨cache1_reachable, (ops_never_panic cache1_reachable).1 "x" "y" 3,
    (ops_never_panic cache1_reachable).2.1 "a" 3,
    (ops_never_panic cache1_reachable).2.2 "a"⟩

/-- C5: for every key already present, Put fully removes the existing entry
from both lists and the index before creating a brand-new entry linked at
the head of both the recency and the age list; the value is updated, every
other key is untouched, and Len is unchanged by the replacement. -/
theorem put_replace {c : LruCache} {k : String} {d : EntryData}
    (h : Reachable c) (hlk : mlookup c.m k = some d) (v : String) (now : Int) :
    ∃ c', c.Put k v now = some c' ∧
      c'.lru = k :: lerase c.lru k ∧ c'.exp = k :: lerase c.exp k ∧
      mlookup c'.m k =
        some { value := v, expiry := if 0 < c.ttl then some (now + c.ttl) else none } ∧
      c'.Len = c.Len ∧ (∀ j, j ≠ k → mlookup c'.m j = mlookup c.m j) ∧
      k ∉ lerase c.lru k ∧ k ∉ lerase c.exp k := by
  obtain ⟨hwf, hsz⟩ := reachable_wf h
  have hkmem : k ∈ keysOf c.m := mem_keysOf_of_mlookup hlk
  have hlen1 : (mErase c.m k).length + 1 = c.m.length := mErase_length_succ hwf.mNodup hkmem
  have hk1 : k ∉ keysOf (mErase c.m k) := by
    rw [mem_keysOf_mErase]
    rintro ⟨_, hne⟩
    exact hne rfl
  refine ⟨{ maxSize := c.maxSize, ttl := c.ttl, lru := k :: lerase c.lru k,
            exp := k :: lerase c.exp k,
            m := mInsert (mErase c.m k) k
              { value := v, expiry := if 0 < c.ttl then some (now + c.ttl) else none } },
    ?_, rfl, rfl, mlookup_mInsert_self _ _ _, ?_, ?_, ?_, ?_⟩
  · simp only [LruCache.Put, hlk, LruCache.delete, LruCache.delist, EntryRef.key]
    refine trim_noop now ?_
    show c.maxSize ≤ 0 ∨ ((mInsert (mErase c.m k) k _).length : Int) ≤ c.maxSize
    rcases lt_or_le 0 c.maxSize with hpos | hneg
    · right
      rw [mInsert_length _ hk1]
      have := hsz hpos
      push_cast
      omega
    · exact Or.inl hneg
  · show (mInsert (mErase c.m k) k _).length = c.m.length
    rw [mInsert_length _ hk1]
    exact hlen1
  · intro j hj
    rw [mlookup_mInsert_ne _ _ _ _ hj, mlookup_mErase_ne _ _ _ hj]
  · rw [mem_lerase hwf.lruNodup]
    rintro ⟨_, hne⟩
    exact hne rfl
  · rw [mem_lerase hwf.expNodup]
    rintro ⟨_, hne⟩
    exact hne rfl

theorem put_replace_witness :
    Reachable cache2 ∧ mlookup cache2.m "a" = some { value := "1", expiry := none } ∧
    (∃ c', cache2.Put "a" "9" 5 = some c' ∧
      c'.lru = "a" :: lerase cache2.lru "a" ∧ c'.exp = "a" :: lerase cache2.exp "a" ∧
      mlookup c'.m "a" =
        some { value := "9",
               expiry := if 0 < cache2.ttl then some (5 + cache2.ttl) else none } ∧
      c'.Len = cache2.Len ∧ (∀ j, j ≠ "a" → mlookup c'.m j = mlookup cache2.m j) ∧
      "a" ∉ lerase cache2.lru "a" ∧ "a" ∉ lerase cache2.exp "a") :=
  ⟨cache2_reachable, rfl,
    @put_replace cache2 "a" { value := "1", expiry := none }
      cache2_reachable rfl "9" 5⟩

/-- C6: for every key present in the cache whose expiry is set and before
the current time, Get purges the entry — removes it from both lists and the
index, decrementing Len by one — and returns not-found.  Together with the
trim branch of `trim_total` this covers the two code paths that reclaim
expired entries. -/
theorem get_expired_purges {c : LruCache} {k : String} {d : EntryData} {now : Int}
    (h : Reachable c) (hlk : mlookup c.m k = some d) (hex : d.IsExpired now = true) :
    c.Get k now =
      some ({ maxSize := c.maxSize, ttl := c.ttl, lru := lerase c.lru k,
              exp := lerase c.exp k, m := mErase c.m k }, "", false) ∧
    mlookup (mErase c.m k) k = none ∧ k ∉ lerase c.lru k ∧ k ∉ lerase c.exp k ∧
    (mErase c.m k).length + 1 = c.Len := by
  obtain ⟨hwf, _⟩ := reachable_wf h
  have hkmem : k ∈ keysOf c.m := mem_keysOf_of_mlookup hlk
  refine ⟨?_, mlookup_mErase_self c.m k, ?_, ?_, mErase_length_succ hwf.mNodup hkmem⟩
  · simp only [LruCache.Get, hlk, hex, if_true, LruCache.delete, LruCache.delist,
      EntryRef.key]
  · rw [mem_lerase hwf.lruNodup]
    rintro ⟨_, hne⟩
    exact hne rfl
  · rw [mem_lerase hwf.expNodup]
    rintro ⟨_, hne⟩
    exact hne rfl

theorem get_expired_purges_witness :
    Reachable cacheT ∧ mlookup cacheT.m "a" = some { value := "x", expiry := some 1 } ∧
    EntryData.IsExpired { value := "x", expiry := some 1 } 2 = true ∧
    (cacheT.Get "a" 2 =
      some ({ maxSize := cacheT.maxSize, ttl := cacheT.ttl, lru := lerase cacheT.lru "a",
              exp := lerase cacheT.exp "a", m := mErase cacheT.m "a" }, "", false) ∧
      mlookup (mErase cacheT.m "a") "a" = none ∧ "a" ∉ lerase cacheT.lru "a" ∧
      "a" ∉ lerase cacheT.exp "a" ∧ (mErase cacheT.m "a").length + 1 = cacheT.Len) :=
  ⟨cacheT_reachable, rfl, rfl,
    @get_expired_purges cacheT "a" { value := "x", expiry := some 1 } 2
      cacheT_reachable rfl rfl⟩

/-- C8: Delete on an absent key returns false and leaves the cache state,
including Len, unchanged; Delete on a present key returns true
unconditionally — no expiry check is made — removes the entry from both
lists and the index so that a subsequent Get reports not-found, and
decrements Len by exactly one. -/
theorem delete_semantics {c : LruCache} (h : Reachable c) (k : String) :
    (mlookup c.m k = none → c.Delete k = some (c, false)) ∧
    (∀ d, mlookup c.m k = some d →
      c.Delete k =
        some ({ maxSize := c.maxSize, ttl := c.ttl, lru := lerase c.lru k,
                exp := lerase c.exp k, m := mErase c.m k }, true) ∧
      (mErase c.m k).length + 1 = c.Len ∧
      mlookup (mErase c.m k) k = none ∧ k ∉ lerase c.lru k ∧ k ∉ lerase c.exp k ∧
      (∀ now : Int,
        LruCache.Get { maxSize := c.maxSize, ttl := c.ttl, lru := lerase c.lru k,
                       exp := lerase c.exp k, m := mErase c.m k } k now =
          some ({ maxSize := c.maxSize, ttl := c.ttl, lru := lerase c.lru k,
                  exp := lerase c.exp k, m := mErase c.m k }, "", false)) ∧
      (∀ j, j ≠ k → mlookup (mErase c.m k) j = mlookup c.m j)) := by
  obtain ⟨hwf, _⟩ := reachable_wf h
  constructor
  · intro hlk
    simp only [LruCache.Delete, hlk]
  · intro d hlk
    have hkmem : k ∈ keysOf c.m := mem_keysOf_of_mlookup hlk
    refine ⟨?_, mErase_length_succ hwf.mNodup hkmem, mlookup_mErase_self c.m k,
      ?_, ?_, ?_, ?_⟩
    · simp only [LruCache.Delete, hlk, LruCache.delete, LruCache.delist, EntryRef.key]
    · rw [mem_lerase hwf.lruNodup]
      rintro ⟨_, hne⟩
      exact hne rfl
    · rw [mem_lerase hwf.expNodup]
      rintro ⟨_, hne⟩
      exact hne rfl
    · intro now
      simp only [LruCache.Get, mlookup_mErase_self]
    · intro j hj
      exact mlookup_mErase_ne c.m k j hj

theorem delete_semantics_witness :
    Reachable cache1 ∧ mlookup cache1.m "zz" = none ∧ cache1.Delete "zz" = some (cache1, false) ∧
    mlookup cache1.m "a" = some { value := "1", expiry := none } ∧
    cache1.Delete "a" =
      some ({ maxSize := cache1.maxSize, ttl := cache1.ttl, lru := lerase cache1.lru "a",
              exp := lerase cache1.exp "a", m := mErase cache1.m "a" }, true) :=
  ⟨cache1_reachable, rfl, (delete_semantics cache1_reachable "zz").1 rfl, rfl,
    ((delete_semantics cache1_reachable "a").2 { value := "1", expiry := none } rfl).1⟩

/-- When the guard fails, `trim` deletes the tail of the age list if that
entry is expired, else the tail of the recency list. -/
theorem trim_evict_fields (ms t : Int) (lr ex : List String)
    (m : List (String × EntryData)) {vA vL : String} {dA : EntryData} (now : Int)
    (hguard : ¬(ms ≤ 0 ∨ (m.length : Int) ≤ ms))
    (hA : ex.getLast? = some vA) (hL : lr.getLast? = some vL)
    (hdA : mlookup m vA = some dA) :
    LruCache.trim { maxSize := ms, ttl := t, lru := lr, exp := ex, m := m } now =
      if dA.IsExpired now = true then
        LruCache.delete { maxSize := ms, ttl := t, lru := lr, exp := ex, m := m }
          (.node vA)
      else
        LruCache.delete { maxSize := ms, ttl := t, lru := lr, exp := ex, m := m }
          (.node vL) := by
  have htep :
      LruCache.tailExpPrev { maxSize := ms, ttl := t, lru := lr, exp := ex, m := m } =
        .node vA := by
    simp only [LruCache.tailExpPrev, hA]
  have htlp :
      LruCache.tailLruPrev { maxSize := ms, ttl := t, lru := lr, exp := ex, m := m } =
        .node vL := by
    simp only [LruCache.tailLruPrev, hL]
  have hre :
      LruCache.refExpired { maxSize := ms, ttl := t, lru := lr, exp := ex, m := m }
        (.node vA) now = dA.IsExpired now := by
    simp only [LruCache.refExpired, hdA]
  rw [LruCache.trim, if_neg hguard, htep, htlp, hre]

/-- Computation of the internal delete on a node reference over explicit
fields. -/
theorem delete_node_fields (ms t : Int) (lr ex : List String)
    (m : List (String × EntryData)) (k : String) :
    LruCache.delete { maxSize := ms, ttl := t, lru := lr, exp := ex, m := m }
      (.node k) =
      some { maxSize := ms, ttl := t, lru := lerase lr k, exp := lerase ex k,
             m := mErase m k } := rfl

/-- C2: whenever a Put brings the entry count above `maxSize` (with
`maxSize > 0`), exactly one entry is evicted before Put returns — the new
count is back at `maxSize` and every prior key except the victim survives —
and the victim is chosen as follows: if the tail-most entry of the age list
(the oldest-inserted entry) is expired it is evicted, even when it is not
the least-recently-used entry; otherwise the tail-most entry of the recency
list (the least-recently-used entry) is evicted. -/
theorem put_eviction_policy {c : LruCache} {k vAge vLru : String} {dA : EntryData}
    (h : Reachable c) (hpos : 0 < c.maxSize) (hlk : mlookup c.m k = none)
    (hfull : (c.m.length : Int) = c.maxSize)
    (hA : c.exp.getLast? = some vAge) (hL : c.lru.getLast? = some vLru)
    (hdA : mlookup c.m vAge = some dA) (v : String) (now : Int) :
    ∃ c', c.Put k v now = some c' ∧ (c'.Len : Int) = c.maxSize ∧ k ∈ keysOf c'.m ∧
      (if dA.IsExpired now = true then
        mlookup c'.m vAge = none ∧ ∀ j, j ∈ keysOf c.m → j ≠ vAge → j ∈ keysOf c'.m
      else
        mlookup c'.m vLru = none ∧ ∀ j, j ∈ keysOf c.m → j ≠ vLru → j ∈ keysOf c'.m) := by
  obtain ⟨hwf, hsz⟩ := reachable_wf h
  have hk : k ∉ keysOf c.m := (mlookup_eq_none_iff c.m k).mp hlk
  have hvAmem : vAge ∈ keysOf c.m := mem_keysOf_of_mlookup hdA
  have hvAk : vAge ≠ k := fun he => hk (he ▸ hvAmem)
  have hvLmem : vLru ∈ keysOf c.m := by
    rw [← hwf.lruMem]
    obtain ⟨hne, heq⟩ := @List.mem_getLast?_eq_getLast String c.lru vLru hL
    exact heq ▸ List.getLast_mem hne
  have hvLk : vLru ≠ k := fun he => hk (he ▸ hvLmem)
  have he0 : c.ttl = 0 →
      (EntryData.mk v (if 0 < c.ttl then some (now + c.ttl) else none)).expiry = none := by
    intro h0
    simp [h0]
  have hwf2 := WF_insert hwf k
    { value := v, expiry := if 0 < c.ttl then some (now + c.ttl) else none } hk he0
  have hc2len :
      (mInsert c.m k
        { value := v, expiry := if 0 < c.ttl then some (now + c.ttl) else none }).length =
        c.m.length + 1 :=
    mInsert_length _ hk
  have hvA2 :
      mlookup (mInsert c.m k
        { value := v, expiry := if 0 < c.ttl then some (now + c.ttl) else none }) vAge =
        some dA := by
    rw [mlookup_mInsert_ne _ _ _ _ hvAk]
    exact hdA
  have hput : c.Put k v now =
      LruCache.trim
        { maxSize := c.maxSize, ttl := c.ttl, lru := k :: c.lru, exp := k :: c.exp,
          m := mInsert c.m k
            { value := v, expiry := if 0 < c.ttl then some (now + c.ttl) else none } }
        now := by
    simp only [LruCache.Put, hlk]
  have hguard : ¬(c.maxSize ≤ 0 ∨
      ((mInsert c.m k
        { value := v,
          expiry := if 0 < c.ttl then some (now + c.ttl) else none }).length : Int) ≤
        c.maxSize) := by
    push_neg
    refine ⟨by omega, ?_⟩
    rw [hc2len]
    push_cast
    omega
  have htrim := trim_evict_fields c.maxSize c.ttl (k :: c.lru) (k :: c.exp)
    (mInsert c.m k
      { value := v, expiry := if 0 < c.ttl then some (now + c.ttl) else none })
    now hguard (getLast?_cons_eq hA) (getLast?_cons_eq hL) hvA2
  rw [htrim] at hput
  have hkmem2 : k ∈ keysOf (mInsert c.m k
      { value := v, expiry := if 0 < c.ttl then some (now + c.ttl) else none }) :=
    (mem_keysOf_mInsert _ _ _ _).mpr (Or.inl rfl)
  by_cases hcase : dA.IsExpired now = true
  · rw [if_pos hcase, delete_node_fields] at hput
    have hvA2mem : vAge ∈ keysOf (mInsert c.m k
        { value := v, expiry := if 0 < c.ttl then some (now + c.ttl) else none }) :=
      mem_keysOf_of_mlookup hvA2
    have hlen3 := @mErase_length_succ (mInsert c.m k
        { value := v, expiry := if 0 < c.ttl then some (now + c.ttl) else none }) vAge
      hwf2.mNodup hvA2mem
    refine ⟨_, hput, ?_, ?_, ?_⟩
    · show ((mErase (mInsert c.m k
        { value := v,
          expiry := if 0 < c.ttl then some (now + c.ttl) else none }) vAge).length : Int) =
        c.maxSize
      rw [hc2len] at hlen3
      omega
    · show k ∈ keysOf (mErase (mInsert c.m k
        { value := v, expiry := if 0 < c.ttl then some (now + c.ttl) else none }) vAge)
      rw [mem_keysOf_mErase]
      exact ⟨hkmem2, fun he => hvAk he.symm⟩
    · rw [if_pos hcase]
      refine ⟨mlookup_mErase_self _ _, ?_⟩
      intro j hj hjne
      show j ∈ keysOf (mErase (mInsert c.m k
        { value := v, expiry := if 0 < c.ttl then some (now + c.ttl) else none }) vAge)
      rw [mem_keysOf_mErase]
      refine ⟨(mem_keysOf_mInsert _ _ _ _).mpr (Or.inr ⟨hj, fun he => hk (he ▸ hj)⟩), hjne⟩
  · rw [if_neg hcase, delete_node_fields] at hput
    have hvL2mem : vLru ∈ keysOf (mInsert c.m k
        { value := v, expiry := if 0 < c.ttl then some (now + c.ttl) else none }) :=
      (mem_keysOf_mInsert _ _ _ _).mpr (Or.inr ⟨hvLmem, hvLk⟩)
    have hlen3 := @mErase_length_succ (mInsert c.m k
        { value := v, expiry := if 0 < c.ttl then some (now + c.ttl) else none }) vLru
      hwf2.mNodup hvL2mem
    refine ⟨_, hput, ?_, ?_, ?_⟩
    · show ((mErase (mInsert c.m k
        { value := v,
          expiry := if 0 < c.ttl then some (now + c.ttl) else none }) vLru).length : Int) =
        c.maxSize
      rw [hc2len] at hlen3
      omega
    · show k ∈ keysOf (mErase (mInsert c.m k
        { value := v, expiry := if 0 < c.ttl then some (now + c.ttl) else none }) vLru)
      rw [mem_keysOf_mErase]
      exact ⟨hkmem2, fun he => hvLk he.symm⟩
    · rw [if_neg hcase]
      refine ⟨mlookup_mErase_self _ _, ?_⟩
      intro j hj hjne
      show j ∈ keysOf (mErase (mInsert c.m k
        { value := v, expiry := if 0 < c.ttl then some (now + c.ttl) else none }) vLru)
      rw [mem_keysOf_mErase]
      refine ⟨(mem_keysOf_mInsert _ _ _ _).mpr (Or.inr ⟨hj, fun he => hk (he ▸ hj)⟩), hjne⟩

theorem put_eviction_policy_witness :
    Reachable cache2 ∧ 0 < cache2.maxSize ∧ mlookup cache2.m "c" = none ∧
    (cache2.m.length : Int) = cache2.maxSize ∧
    cache2.exp.getLast? = some "a" ∧ cache2.lru.getLast? = some "a" ∧
    mlookup cache2.m "a" = some { value := "1", expiry := none } ∧
    (∃ c', cache2.Put "c" "3" 0 = some c' ∧ (c'.Len : Int) = cache2.maxSize ∧
      "c" ∈ keysOf c'.m ∧
      (if EntryData.IsExpired { value := "1", expiry := none } 0 = true then
        mlookup c'.m "a" = none ∧
          ∀ j, j ∈ keysOf cache2.m → j ≠ "a" → j ∈ keysOf c'.m
      else
        mlookup c'.m "a" = none ∧
          ∀ j, j ∈ keysOf cache2.m → j ≠ "a" → j ∈ keysOf c'.m)) :=
  ⟨cache2_reachable, by decide, rfl, by decide, rfl, rfl, rfl,
   @put_eviction_policy cache2 "c" "a" "a" { value := "1", expiry := none }
     cache2_reachable (by decide) rfl (by decide) rfl rfl rfl "3" 0⟩

/-- Getting every key of a list empties the index, provided every stored
entry is expired at the given instant: each Get on a present key purges it
(lazy expiry), and each Get on an absent key changes nothing. -/
theorem getAll_len_zero {now : Int} :
    ∀ (ks : List String) (c : LruCache), WF c →
      (∀ x, x ∈ keysOf c.m → x ∈ ks) →
      (∀ k d, mlookup c.m k = some d → d.IsExpired now = true) →
      (getAll c ks now).Len = 0 := by
  intro ks
  induction ks with
  | nil =>
    intro c hwf hsub hexp
    have hmnil : c.m = [] := by
      cases hm : c.m with
      | nil => rfl
      | cons p rest =>
        exfalso
        have hmem : p.1 ∈ keysOf c.m := by
          rw [hm]
          simp [keysOf]
        exact absurd (hsub p.1 hmem) (List.not_mem_nil p.1)
    simp [getAll, LruCache.Len, hmnil]
  | cons k rest ih =>
    intro c hwf hsub hexp
    rcases hlk : mlookup c.m k with _ | d
    · have hknot : k ∉ keysOf c.m := (mlookup_eq_none_iff c.m k).mp hlk
      have hget : c.Get k now = some (c, "", false) := by
        simp only [LruCache.Get, hlk]
      simp only [getAll, hget]
      refine ih c hwf (fun x hx => ?_) hexp
      have hxne : x ≠ k := fun he => hknot (he ▸ hx)
      rcases List.mem_cons.mp (hsub x hx) with h1 | h1
      · exact absurd h1 hxne
      · exact h1
    · have hex := hexp k d hlk
      have hget : c.Get k now =
          some ({ maxSize := c.maxSize, ttl := c.ttl, lru := lerase c.lru k,
                  exp := lerase c.exp k, m := mErase c.m k }, "", false) := by
        simp only [LruCache.Get, hlk, hex, if_true, LruCache.delete, LruCache.delist,
          EntryRef.key]
      simp only [getAll, hget]
      refine ih _ (WF_erase k hwf) (fun x hx => ?_) (fun k' d' hl' => ?_)
      · have hx' := (mem_keysOf_mErase c.m k x).mp hx
        rcases List.mem_cons.mp (hsub x hx'.1) with h1 | h1
        · exact absurd h1 hx'.2
        · exact h1
      · have hl2 : mlookup (mErase c.m k) k' = some d' := hl'
        by_cases hkk : k' = k
        · rw [hkk, mlookup_mErase_self] at hl2
          exact Option.noConfusion hl2
        · rw [mlookup_mErase_ne c.m k k' hkk] at hl2
          exact hexp k' d' hl2

/-- C7 (amended): for a cache with `ttl > 0`, once every stored entry is
expired (the ttl has elapsed past every insertion), every Get reports
not-found, and after a Get has been performed on each key of the index, Len
reports 0.  Len alone does not drop to 0 until the expired entries are
observed, because expiry is discovered and purged lazily. -/
theorem full_expiry {c : LruCache} {now : Int} (h : Reachable c) (httl : 0 < c.ttl)
    (hexp : ∀ k d, mlookup c.m k = some d → d.IsExpired now = true) :
    (∀ k, ∃ c2 : LruCache, c.Get k now = some (c2, "", false)) ∧
    (getAll c (keysOf c.m) now).Len = 0 := by
  obtain ⟨hwf, _⟩ := reachable_wf h
  constructor
  · intro k
    rcases hlk : mlookup c.m k with _ | d
    · exact ⟨c, by simp only [LruCache.Get, hlk]⟩
    · exact ⟨{ maxSize := c.maxSize, ttl := c.ttl, lru := lerase c.lru k,
               exp := lerase c.exp k, m := mErase c.m k },
        by simp only [LruCache.Get, hlk, hexp k d hlk, if_true, LruCache.delete,
          LruCache.delist, EntryRef.key]⟩
  · exact getAll_len_zero (keysOf c.m) c hwf (fun x hx => hx) hexp

/-- C7, counterexample to the claim as stated: in the reachable state
`cacheT` (ttl = 1, key "a" inserted at instant 0 with expiry 1), at instant
2 the ttl has elapsed past every insertion and Get reports not-found for
the only key, yet Len reports 1, not 0 — Len does not drop until the
expired entry is purged by an access. -/
theorem full_expiry_counterexample :
    Reachable cacheT ∧ 0 < cacheT.ttl ∧
    keysOf cacheT.m = ["a"] ∧
    mlookup cacheT.m "a" = some { value := "x", expiry := some 1 } ∧
    EntryData.IsExpired { value := "x", expiry := some 1 } 2 = true ∧
    cacheT.Get "a" 2 =
      some ({ maxSize := 0, ttl := 1, lru := [], exp := [], m := [] }, "", false) ∧
    cacheT.Len = 1 :=
  ⟨cacheT_reachable, by decide, rfl, rfl, by decide, rfl, rfl⟩

theorem full_expiry_witness :
    Reachable cacheT ∧ 0 < cacheT.ttl ∧
    (getAll cacheT (keysOf cacheT.m) 2).Len = 0 :=
  ⟨cacheT_reachable, by decide,
    (full_expiry cacheT_reachable (by decide) (by
      intro k d hl
      have hl' : (if "a" = k then some { value := "x", expiry := some 1 }
          else none) = some d := hl
      by_cases hk : "a" = k
      · rw [if_pos hk] at hl'
        cases hl'
        decide
      · rw [if_neg hk] at hl'
        exact Option.noConfusion hl')).2⟩

/-- C9: construction fails, producing no object, exactly when `maxSize` or
`ttl` is negative; with `maxSize = 0` the count is unbounded — no Put ever
evicts another entry — and with `ttl = 0` no entry ever expires: Get on any
present key succeeds regardless of the elapsed time. -/
theorem construction_and_zero_modes :
    (∀ ms t : Int, (New ms t).isSome ↔ 0 ≤ ms ∧ 0 ≤ t) ∧
    (∀ c : LruCache, Reachable c → c.maxSize = 0 → ∀ k v : String, ∀ now : Int,
      ∃ c', c.Put k v now = some c' ∧ k ∈ keysOf c'.m ∧
        (∀ j, j ≠ k → mlookup c'.m j = mlookup c.m j) ∧
        (mlookup c.m k = none → c'.Len = c.Len + 1)) ∧
    (∀ c : LruCache, Reachable c → c.ttl = 0 →
      ∀ (k : String) (d : EntryData) (now : Int), mlookup c.m k = some d →
        c.Get k now =
          some ({ maxSize := c.maxSize, ttl := c.ttl, lru := k :: lerase c.lru k,
                  exp := c.exp, m := c.m }, d.value, true)) := by
  refine ⟨?_, ?_, ?_⟩
  · intro ms t
    by_cases h1 : ms < 0
    · simp only [New, if_pos h1, Option.isSome_none]
      constructor
      · intro hf
        exact absurd hf (by simp)
      · intro hab
        omega
    · by_cases h2 : t < 0
      · simp only [New, if_neg h1, if_pos h2, Option.isSome_none]
        constructor
        · intro hf
          exact absurd hf (by simp)
        · intro hab
          omega
      · simp only [New, if_neg h1, if_neg h2, Option.isSome_some, true_iff]
        omega
  · intro c hre h0 k v now
    obtain ⟨hwf, hsz⟩ := reachable_wf hre
    rcases hlk : mlookup c.m k with _ | d
    · have hk : k ∉ keysOf c.m := (mlookup_eq_none_iff c.m k).mp hlk
      refine ⟨{ maxSize := c.maxSize, ttl := c.ttl, lru := k :: c.lru,
                exp := k :: c.exp,
                m := mInsert c.m k { value := v, expiry := if 0 < c.ttl then some (now + c.ttl) else none } },
        ?_, ?_, ?_, ?_⟩
      · simp only [LruCache.Put, hlk]
        refine trim_noop now (Or.inl ?_)
        show c.maxSize ≤ 0
        omega
      · exact (mem_keysOf_mInsert _ _ _ _).mpr (Or.inl rfl)
      · intro j hj
        exact mlookup_mInsert_ne _ _ _ _ hj
      · intro _
        show (mInsert c.m k _).length = c.m.length + 1
        exact mInsert_length _ hk
    · have hkmem : k ∈ keysOf c.m := mem_keysOf_of_mlookup hlk
      have hk1 : k ∉ keysOf (mErase c.m k) := by
        rw [mem_keysOf_mErase]
        rintro ⟨_, hne⟩
        exact hne rfl
      refine ⟨{ maxSize := c.maxSize, ttl := c.ttl, lru := k :: lerase c.lru k,
                exp := k :: lerase c.exp k,
                m := mInsert (mErase c.m k) k { value := v, expiry := if 0 < c.ttl then some (now + c.ttl) else none } },
        ?_, ?_, ?_, ?_⟩
      · simp only [LruCache.Put, hlk, LruCache.delete, LruCache.delist, EntryRef.key]
        refine trim_noop now (Or.inl ?_)
        show c.maxSize ≤ 0
        omega
      · exact (mem_keysOf_mInsert _ _ _ _).mpr (Or.inl rfl)
      · intro j hj
        show mlookup (mInsert (mErase c.m k) k _) j = mlookup c.m j
        rw [mlookup_mInsert_ne _ _ _ _ hj, mlookup_mErase_ne _ _ _ hj]
      · intro hnone
        exact Option.noConfusion hnone
  · intro c hre h0 k d now hlk
    obtain ⟨hwf, _⟩ := reachable_wf hre
    have hexpn : d.expiry = none := hwf.ttlZeroNoExpiry h0 k d hlk
    have hex : d.IsExpired now = false := by
      simp [EntryData.IsExpired, hexpn]
    simp only [LruCache.Get, hlk, hex, Bool.false_eq_true, if_false]

theorem construction_and_zero_modes_witness :
    ((New (-1) 5).isSome ↔ 0 ≤ (-1 : Int) ∧ 0 ≤ (5 : Int)) ∧
    ((New 2 0).isSome ↔ 0 ≤ (2 : Int) ∧ 0 ≤ (0 : Int)) ∧
    Reachable cacheT ∧ cacheT.maxSize = 0 ∧
    (∃ c', cacheT.Put "zz" "w" 0 = some c' ∧ "zz" ∈ keysOf c'.m ∧
      (∀ j, j ≠ "zz" → mlookup c'.m j = mlookup cacheT.m j) ∧
      (mlookup cacheT.m "zz" = none → c'.Len = cacheT.Len + 1)) ∧
    Reachable cache1 ∧ cache1.ttl = 0 ∧
    cache1.Get "a" 99 =
      some ({ maxSize := cache1.maxSize, ttl := cache1.ttl,
              lru := "a" :: lerase cache1.lru "a", exp := cache1.exp,
              m := cache1.m }, "1", true) :=
  ⟨construction_and_zero_modes.1 (-1) 5, construction_and_zero_modes.1 2 0,
   cacheT_reachable, rfl,
   construction_and_zero_modes.2.1 cacheT cacheT_reachable rfl "zz" "w" 0,
   cache1_reachable, rfl,
   construction_and_zero_modes.2.2 cache1 cache1_reachable rfl "a"
     { value := "1", expiry := none } 99 rfl⟩

/-- Unlinking the tail-most node: erasing a key that occurs only as the last
element removes exactly that element. -/
theorem lerase_concat_self {xs : List String} {a : String} (h : a ∉ xs) :
    lerase (xs ++ [a]) a = xs := by
  induction xs with
  | nil => simp [lerase]
  | cons x rest ih =>
    simp only [List.mem_cons] at h
    push_neg at h
    have hxa : ¬x = a := fun he => h.1 he.symm
    rw [List.cons_append,
      show lerase (x :: (rest ++ [a])) a = x :: lerase (rest ++ [a]) a from by
        simp only [lerase, if_neg hxa],
      ih h.2]

/-- A key not among the removed ones survives at the head of the list. -/
theorem leraseAll_cons_of_not_mem :
    ∀ (ks l : List String) (k : String), k ∉ ks →
      leraseAll (k :: l) ks = k :: leraseAll l ks := by
  intro ks
  induction ks with
  | nil =>
    intro l k _
    rfl
  | cons a rest ih =>
    intro l k hk
    simp only [List.mem_cons] at hk
    push_neg at hk
    have hka : ¬k = a := hk.1
    show leraseAll (lerase (k :: l) a) rest = k :: leraseAll (lerase l a) rest
    rw [show lerase (k :: l) a = k :: lerase l a from by simp only [lerase, if_neg hka]]
    exact ih (lerase l a) k hk.2

/-- Iterated unlinking keeps the sequence duplicate-free and removes exactly
the listed keys. -/
theorem leraseAll_spec :
    ∀ (ks l : List String), l.Nodup →
      (leraseAll l ks).Nodup ∧ (∀ x, x ∈ leraseAll l ks ↔ x ∈ l ∧ x ∉ ks) := by
  intro ks
  induction ks with
  | nil =>
    intro l hl
    exact ⟨hl, fun x => by simp [leraseAll]⟩
  | cons k rest ih =>
    intro l hl
    obtain ⟨ihnd, ihmem⟩ := ih (lerase l k) (lerase_nodup k hl)
    refine ⟨ihnd, fun x => ?_⟩
    show x ∈ leraseAll (lerase l k) rest ↔ x ∈ l ∧ x ∉ k :: rest
    rw [ihmem x, mem_lerase hl]
    simp only [List.mem_cons]
    constructor
    · rintro ⟨⟨hx1, hx2⟩, hx3⟩
      exact ⟨hx1, fun hor => by
        rcases hor with hor | hor
        · exact hx2 hor
        · exact hx3 hor⟩
    · rintro ⟨hx1, hx2⟩
      push_neg at hx2
      exact ⟨⟨hx1, hx2.1⟩, hx2.2⟩

/-- Performing a Get on each key of a duplicate-free list of present keys,
in order, in a cache whose entries never expire, leaves the index, the age
list and the configuration untouched and rebuilds the recency list as the
accessed keys in reverse access order (most recently touched first),
followed by the unaccessed keys in their prior recency order. -/
theorem getAll_reorder {now : Int} :
    ∀ (ks : List String) (c : LruCache), Reachable c → c.ttl = 0 → ks.Nodup →
      (∀ k, k ∈ ks → k ∈ keysOf c.m) →
      Reachable (getAll c ks now) ∧
      (getAll c ks now).maxSize = c.maxSize ∧ (getAll c ks now).ttl = c.ttl ∧
      (getAll c ks now).lru = ks.reverse ++ leraseAll c.lru ks ∧
      (getAll c ks now).exp = c.exp ∧ (getAll c ks now).m = c.m := by
  intro ks
  induction ks with
  | nil =>
    intro c hre h0 hnd hsub
    exact ⟨hre, rfl, rfl, rfl, rfl, rfl⟩
  | cons k rest ih =>
    intro c hre h0 hnd hsub
    have hkmem : k ∈ keysOf c.m := hsub k (List.mem_cons_self k rest)
    obtain ⟨hwf, _⟩ := reachable_wf hre
    obtain ⟨d, hd⟩ : ∃ d, mlookup c.m k = some d := by
      rcases hmk : mlookup c.m k with _ | d
      · exact absurd hkmem ((mlookup_eq_none_iff c.m k).mp hmk)
      · exact ⟨d, rfl⟩
    have hdexp : d.expiry = none := hwf.ttlZeroNoExpiry h0 k d hd
    have hdIsExp : d.IsExpired now = false := by simp [EntryData.IsExpired, hdexp]
    have hget : c.Get k now =
        some ({ maxSize := c.maxSize, ttl := c.ttl, lru := k :: lerase c.lru k,
                exp := c.exp, m := c.m }, d.value, true) := by
      simp only [LruCache.Get, hd, hdIsExp, Bool.false_eq_true, if_false]
    have hre1 := Reachable.get c k now _ d.value true hre hget
    have hknotr : k ∉ rest := (List.nodup_cons.mp hnd).1
    obtain ⟨ihre, ihms, ihttl, ihlru, ihexp, ihm⟩ := ih
      { maxSize := c.maxSize, ttl := c.ttl, lru := k :: lerase c.lru k,
        exp := c.exp, m := c.m } hre1 h0 (List.nodup_cons.mp hnd).2
      (fun x hx => hsub x (List.mem_cons_of_mem k hx))
    have hgonce : getAll c (k :: rest) now =
        getAll { maxSize := c.maxSize, ttl := c.ttl, lru := k :: lerase c.lru k,
                 exp := c.exp, m := c.m } rest now := by
      simp only [getAll, hget]
    rw [hgonce]
    refine ⟨ihre, ihms, ihttl, ?_, ihexp, ihm⟩
    rw [ihlru]
    show rest.reverse ++ leraseAll (k :: lerase c.lru k) rest =
      (k :: rest).reverse ++ leraseAll c.lru (k :: rest)
    rw [leraseAll_cons_of_not_mem rest (lerase c.lru k) k hknotr, List.reverse_cons,
      List.append_assoc]
    rfl

/-- Inserting a sequence of fresh distinct keys into a cache at capacity
whose entries never expire evicts, one insertion at a time, exactly the
keys of the recency list from the tail end inwards: with the recency list
split as `front ++ asq.reverse`, the first `bs.length` keys of `asq` are
evicted in order, every other present key survives, every inserted key is
present, and absent keys that are not inserted stay absent. -/
theorem putAll_evict_order {now : Int} :
    ∀ (bs asq front : List String) (c : LruCache),
      Reachable c → c.ttl = 0 → 0 < c.maxSize → ((c.Len : Int) = c.maxSize) →
      c.lru = front ++ asq.reverse →
      (∀ b, b ∈ bs → b ∉ keysOf c.m) → bs.Nodup → bs.length ≤ asq.length →
      Reachable (putAll c bs now) ∧
      (∀ x, x ∈ asq.take bs.length → x ∉ keysOf (putAll c bs now).m) ∧
      (∀ x, x ∈ keysOf c.m → x ∉ asq.take bs.length → x ∈ keysOf (putAll c bs now).m) ∧
      (∀ x, x ∉ keysOf c.m → x ∉ bs → x ∉ keysOf (putAll c bs now).m) ∧
      (∀ b, b ∈ bs → b ∈ keysOf (putAll c bs now).m) := by
  intro bs
  induction bs with
  | nil =>
    intro asq front c hre h0 hpos hfull hlru hfresh hnd hlen
    refine ⟨hre, ?_, ?_, ?_, ?_⟩
    · intro x hx
      simp at hx
    · intro x hx _
      exact hx
    · intro x hx _
      exact hx
    · intro b hb
      exact absurd hb (List.not_mem_nil b)
  | cons b bs' ih =>
    intro asq front c hre h0 hpos hfull hlru hfresh hnd hlen
    obtain ⟨hwf, hsz⟩ := reachable_wf hre
    cases asq with
    | nil =>
      rw [List.length_cons] at hlen
      exact absurd hlen (by simp)
    | cons a as' =>
    have hbfresh : b ∉ keysOf c.m := hfresh b (List.mem_cons_self b bs')
    have hlkb : mlookup c.m b = none := (mlookup_eq_none_iff c.m b).mpr hbfresh
    have hlru' : c.lru = (front ++ as'.reverse) ++ [a] := by
      rw [hlru, List.reverse_cons, List.append_assoc]
    have hamem_lru : a ∈ c.lru := by
      rw [hlru']
      exact List.mem_append_right _ (List.mem_singleton.mpr rfl)
    have hamem : a ∈ keysOf c.m := (hwf.lruMem a).mp hamem_lru
    have hab : ¬b = a := fun he => hbfresh (by rw [he]; exact hamem)
    have hmne : c.m ≠ [] := by
      intro hnil
      rw [show c.Len = c.m.length from rfl, hnil] at hfull
      simp at hfull
      omega
    have hexpne : c.exp ≠ [] := exp_ne_nil_of_m_ne_nil hwf hmne
    obtain ⟨w, hw⟩ : ∃ w, c.exp.getLast? = some w :=
      ⟨c.exp.getLast hexpne, List.getLast?_eq_getLast_of_ne_nil hexpne⟩
    have hwmem : w ∈ keysOf c.m := by
      rw [← hwf.expMem w]
      obtain ⟨hne2, heq⟩ := @List.mem_getLast?_eq_getLast String c.exp w hw
      exact heq ▸ List.getLast_mem hne2
    have hwb : w ≠ b := fun he => hbfresh (by rw [← he]; exact hwmem)
    obtain ⟨dw, hdw⟩ : ∃ dw, mlookup c.m w = some dw := by
      rcases hmw : mlookup c.m w with _ | dw
      · exact absurd hwmem ((mlookup_eq_none_iff c.m w).mp hmw)
      · exact ⟨dw, rfl⟩
    have hdwexp : dw.expiry = none := hwf.ttlZeroNoExpiry h0 w dw hdw
    have hdwIsExp : dw.IsExpired now = false := by simp [EntryData.IsExpired, hdwexp]
    have hput : c.Put b b now =
        LruCache.trim
          { maxSize := c.maxSize, ttl := c.ttl, lru := b :: c.lru, exp := b :: c.exp,
            m := mInsert c.m b
              { value := b, expiry := if 0 < c.ttl then some (now + c.ttl) else none } }
          now := by
      simp only [LruCache.Put, hlkb]
    have hc2len : (mInsert c.m b
        { value := b, expiry := if 0 < c.ttl then some (now + c.ttl) else none }).length =
        c.m.length + 1 := mInsert_length _ hbfresh
    have hguard : ¬(c.maxSize ≤ 0 ∨
        ((mInsert c.m b
          { value := b,
            expiry := if 0 < c.ttl then some (now + c.ttl) else none }).length : Int) ≤
          c.maxSize) := by
      push_neg
      refine ⟨by omega, ?_⟩
      rw [hc2len]
      have hfull' : (c.m.length : Int) = c.maxSize := hfull
      push_cast
      omega
    have hL2 : (b :: c.lru).getLast? = some a := by
      rw [hlru',
        show b :: ((front ++ as'.reverse) ++ [a]) = (b :: (front ++ as'.reverse)) ++ [a]
          from rfl]
      exact List.getLast?_concat _
    have hA2 : (b :: c.exp).getLast? = some w := getLast?_cons_eq hw
    have hdw2 : mlookup (mInsert c.m b
        { value := b, expiry := if 0 < c.ttl then some (now + c.ttl) else none }) w =
        some dw := by
      rw [mlookup_mInsert_ne _ _ _ _ hwb]
      exact hdw
    have htrim := trim_evict_fields c.maxSize c.ttl (b :: c.lru) (b :: c.exp)
      (mInsert c.m b
        { value := b, expiry := if 0 < c.ttl then some (now + c.ttl) else none })
      now hguard hA2 hL2 hdw2
    rw [htrim, if_neg (by rw [hdwIsExp]; exact Bool.false_ne_true),
      delete_node_fields] at hput
    have hre1 := Reachable.put c b b now _ hre hput
    have hanotfr : a ∉ front ++ as'.reverse := by
      have hnd2 := hwf.lruNodup
      rw [hlru'] at hnd2
      obtain ⟨_, _, hdisj⟩ := List.nodup_append.mp hnd2
      intro ha2
      exact hdisj ha2 (List.mem_singleton.mpr rfl)
    have hlru1 : lerase (b :: c.lru) a = (b :: front) ++ as'.reverse := by
      rw [show lerase (b :: c.lru) a = b :: lerase c.lru a from by
        simp only [lerase, if_neg hab], hlru', lerase_concat_self hanotfr]
      rfl
    have hkeysg1 : ∀ x, x ∈ keysOf (mErase (mInsert c.m b
        { value := b, expiry := if 0 < c.ttl then some (now + c.ttl) else none }) a) ↔
        ((x = b ∨ x ∈ keysOf c.m) ∧ x ≠ a) := by
      intro x
      rw [mem_keysOf_mErase, mem_keysOf_mInsert]
      constructor
      · rintro ⟨hx1 | hx1, hx2⟩
        · exact ⟨Or.inl hx1, hx2⟩
        · exact ⟨Or.inr hx1.1, hx2⟩
      · rintro ⟨hx1 | hx1, hx2⟩
        · exact ⟨Or.inl hx1, hx2⟩
        · by_cases hxb : x = b
          · exact ⟨Or.inl hxb, hx2⟩
          · exact ⟨Or.inr ⟨hx1, hxb⟩, hx2⟩
    have hwfc2 := WF_insert hwf b
      { value := b, expiry := if 0 < c.ttl then some (now + c.ttl) else none } hbfresh
      (by
        intro h00
        simp [h00])
    have hamem2 : a ∈ keysOf (mInsert c.m b
        { value := b, expiry := if 0 < c.ttl then some (now + c.ttl) else none }) :=
      (mem_keysOf_mInsert _ _ _ _).mpr (Or.inr ⟨hamem, fun he => hab he.symm⟩)
    have hleng1 := @mErase_length_succ (mInsert c.m b
        { value := b, expiry := if 0 < c.ttl then some (now + c.ttl) else none }) a
      hwfc2.mNodup hamem2
    have hfull1 : ((mErase (mInsert c.m b
        { value := b,
          expiry := if 0 < c.ttl then some (now + c.ttl) else none }) a).length : Int) =
        c.maxSize := by
      rw [hc2len] at hleng1
      have hfull' : (c.m.length : Int) = c.maxSize := hfull
      omega
    have hfresh1 : ∀ b', b' ∈ bs' → b' ∉ keysOf (mErase (mInsert c.m b
        { value := b, expiry := if 0 < c.ttl then some (now + c.ttl) else none }) a) := by
      intro b' hb' hmem
      obtain ⟨hx1 | hx1, _⟩ := (hkeysg1 b').mp hmem
      · exact (List.nodup_cons.mp hnd).1 (hx1 ▸ hb')
      · exact hfresh b' (List.mem_cons_of_mem b hb') hx1
    have hlen1 : bs'.length ≤ as'.length := by
      rw [List.length_cons, List.length_cons] at hlen
      omega
    obtain ⟨ihP1, ihP2, ihP3, ihP4, ihP5⟩ := ih as' (b :: front) _ hre1 h0 hpos hfull1
      hlru1 hfresh1 (List.nodup_cons.mp hnd).2 hlen1
    have hputAll : putAll c (b :: bs') now =
        putAll { maxSize := c.maxSize, ttl := c.ttl,
                 lru := lerase (b :: c.lru) a, exp := lerase (b :: c.exp) a,
                 m := mErase (mInsert c.m b
                   { value := b,
                     expiry := if 0 < c.ttl then some (now + c.ttl) else none }) a }
          bs' now := by
      simp only [putAll, hput]
    rw [hputAll]
    refine ⟨ihP1, ?_, ?_, ?_, ?_⟩
    · intro x hx
      rw [List.length_cons, List.take_succ_cons] at hx
      rcases List.mem_cons.mp hx with hx1 | hx1
      · subst hx1
        refine ihP4 x ?_ ?_
        · intro hmem
          obtain ⟨_, hne⟩ := (hkeysg1 x).mp hmem
          exact hne rfl
        · intro hxbs
          exact hfresh x (List.mem_cons_of_mem b hxbs) hamem
      · exact ihP2 x hx1
    · intro x hxk hxt
      rw [List.length_cons, List.take_succ_cons] at hxt
      have hxa : x ≠ a := fun he => hxt (by rw [he]; exact List.mem_cons_self a _)
      have hxt' : x ∉ as'.take bs'.length := fun hmem => hxt (List.mem_cons_of_mem a hmem)
      refine ihP3 x ?_ hxt'
      rw [hkeysg1]
      exact ⟨Or.inr hxk, hxa⟩
    · intro x hxk hxb
      have hxb2 : x ≠ b := fun he => hxb (by rw [he]; exact List.mem_cons_self b bs')
      have hxbs' : x ∉ bs' := fun hmem => hxb (List.mem_cons_of_mem b hmem)
      refine ihP4 x ?_ hxbs'
      intro hmem
      obtain ⟨hx1 | hx1, _⟩ := (hkeysg1 x).mp hmem
      · exact hxb2 hx1
      · exact hxk hx1
    · intro b' hb'
      rcases List.mem_cons.mp hb' with hb1 | hb1
      · subst hb1
        refine ihP3 b' ?_ ?_
        · rw [hkeysg1]
          exact ⟨Or.inl rfl, fun he => hbfresh (by rw [he]; exact hamem)⟩
        · intro hmem
          have hbas : b' ∈ as' := List.take_subset _ _ hmem
          have hblru : b' ∈ c.lru := by
            rw [hlru]
            exact List.mem_append_right _
              (List.mem_reverse.mpr (List.mem_cons_of_mem a hbas))
          exact hbfresh ((hwf.lruMem b').mp hblru)
      · exact ihP5 b' hb1

/-- Seed-independent LRU re-ordering law: in a reachable cache at capacity
whose entries never expire, perform a Get on each key of an arbitrary
duplicate-free list `as` of present keys (the access order), then insert
fresh distinct keys one at a time.  The evictions consume, in order, the
fixed queue `(leraseAll c0.lru as).reverse ++ as` — the unaccessed keys
from the least recently used end first, then the accessed keys in access
order — so after any number `j` of insertions exactly the first `j` keys of
that queue are gone, the rest are still present, and the inserted keys are
present: the least recently touched key is always evicted first. -/
theorem access_then_insert_evicts :
    ∀ (c0 : LruCache) (as bs : List String) (now : Int) (j : Nat),
      Reachable c0 → c0.ttl = 0 → 0 < c0.maxSize → ((c0.Len : Int) = c0.maxSize) →
      as.Nodup → (∀ x, x ∈ as → x ∈ keysOf c0.m) →
      bs.Nodup → (∀ b, b ∈ bs → b ∉ keysOf c0.m) →
      bs.length ≤ ((leraseAll c0.lru as).reverse ++ as).length → j ≤ bs.length →
      (∀ x, x ∈ ((leraseAll c0.lru as).reverse ++ as).take j →
        x ∉ keysOf (putAll (getAll c0 as now) (bs.take j) now).m) ∧
      (∀ x, x ∈ ((leraseAll c0.lru as).reverse ++ as).drop j →
        x ∈ keysOf (putAll (getAll c0 as now) (bs.take j) now).m) ∧
      (∀ b, b ∈ bs.take j → b ∈ keysOf (putAll (getAll c0 as now) (bs.take j) now).m) := by
  intro c0 as bs now j hre h0 hpos hfull hasnd hassub hbsnd hbsfresh hlen hj
  obtain ⟨hwf0, _⟩ := reachable_wf hre
  obtain ⟨hgre, hgms, hgttl, hglru, hgexp, hgm⟩ := getAll_reorder as c0 hre h0 hasnd hassub
  obtain ⟨hRnd, hRmem⟩ := leraseAll_spec as c0.lru hwf0.lruNodup
  have hqnodup : ((leraseAll c0.lru as).reverse ++ as).Nodup := by
    rw [List.nodup_append]
    refine ⟨List.nodup_reverse.mpr hRnd, hasnd, ?_⟩
    intro x hx1 hx2
    exact ((hRmem x).mp (List.mem_reverse.mp hx1)).2 hx2
  have hjlen : (bs.take j).length = j := by
    rw [List.length_take]
    omega
  have h1 : (getAll c0 as now).ttl = 0 := by
    rw [hgttl]
    exact h0
  have h2 : 0 < (getAll c0 as now).maxSize := by
    rw [hgms]
    exact hpos
  have h3 : (((getAll c0 as now).Len : Int)) = (getAll c0 as now).maxSize := by
    show (((getAll c0 as now).m.length : Int)) = (getAll c0 as now).maxSize
    rw [hgm, hgms]
    exact hfull
  have h4 : (getAll c0 as now).lru =
      [] ++ ((leraseAll c0.lru as).reverse ++ as).reverse := by
    rw [hglru, List.reverse_append, List.reverse_reverse, List.nil_append]
  have h5 : ∀ b, b ∈ bs.take j → b ∉ keysOf (getAll c0 as now).m := by
    intro b hb
    rw [hgm]
    exact hbsfresh b (List.take_subset j bs hb)
  have h6 : (bs.take j).Nodup := (List.take_sublist j bs).nodup hbsnd
  have h7 : (bs.take j).length ≤ ((leraseAll c0.lru as).reverse ++ as).length := by
    rw [hjlen]
    omega
  obtain ⟨_, hP2, hP3, _, hP5⟩ := putAll_evict_order (bs.take j)
    ((leraseAll c0.lru as).reverse ++ as) [] (getAll c0 as now)
    hgre h1 h2 h3 h4 h5 h6 h7
  rw [hjlen] at hP2 hP3
  refine ⟨hP2, ?_, hP5⟩
  intro x hx
  have hxq : x ∈ (leraseAll c0.lru as).reverse ++ as :=
    List.drop_subset j _ hx
  have hxk : x ∈ keysOf (getAll c0 as now).m := by
    rw [hgm]
    rcases List.mem_append.mp hxq with hx1 | hx1
    · exact (hwf0.lruMem x).mp ((hRmem x).mp (List.mem_reverse.mp hx1)).1
    · exact hassub x hx1
  refine hP3 x hxk ?_
  intro hxt
  exact (List.disjoint_take_drop hqnodup (le_refl j)) hxt hx

/-- C4: for every key present in the cache and not expired, Get returns its
value with found true, unlinks the entry from its current recency-list
position and relinks it at the recency-list head, and leaves the age list
and the index untouched (first conjunct).  Consequently (second and third
conjuncts, quantified over every reachable at-capacity cache with
non-expiring entries, every duplicate-free access order, every sequence of
fresh insertions and every step count): after Gets on a permuted list of
present keys, each subsequent insertion evicts the least recently touched
key — the eviction sequence consumes the unaccessed keys from the stale end
first and then the accessed keys in exactly their access order, the order
opposite to the recency the accesses created, not insertion order.  When
the accesses cover the whole key set (third conjunct), the i-th insertion
evicts precisely the i-th accessed key. -/
theorem get_promotes {c : LruCache} {k : String} {d : EntryData} {now : Int}
    (h : Reachable c) (hlk : mlookup c.m k = some d) (hex : d.IsExpired now = false) :
    (c.Get k now =
      some ({ maxSize := c.maxSize, ttl := c.ttl, lru := k :: lerase c.lru k,
              exp := c.exp, m := c.m }, d.value, true)) ∧
    (∀ (c0 : LruCache) (as bs : List String) (now2 : Int) (j : Nat),
      Reachable c0 → c0.ttl = 0 → 0 < c0.maxSize → ((c0.Len : Int) = c0.maxSize) →
      as.Nodup → (∀ x, x ∈ as → x ∈ keysOf c0.m) →
      bs.Nodup → (∀ b, b ∈ bs → b ∉ keysOf c0.m) →
      bs.length ≤ ((leraseAll c0.lru as).reverse ++ as).length → j ≤ bs.length →
      (∀ x, x ∈ ((leraseAll c0.lru as).reverse ++ as).take j →
        x ∉ keysOf (putAll (getAll c0 as now2) (bs.take j) now2).m) ∧
      (∀ x, x ∈ ((leraseAll c0.lru as).reverse ++ as).drop j →
        x ∈ keysOf (putAll (getAll c0 as now2) (bs.take j) now2).m) ∧
      (∀ b, b ∈ bs.take j →
        b ∈ keysOf (putAll (getAll c0 as now2) (bs.take j) now2).m)) ∧
    (∀ (c0 : LruCache) (as bs : List String) (now2 : Int) (j : Nat),
      Reachable c0 → c0.ttl = 0 → 0 < c0.maxSize → ((c0.Len : Int) = c0.maxSize) →
      as.Nodup → (∀ x, x ∈ as → x ∈ keysOf c0.m) → (∀ x, x ∈ keysOf c0.m → x ∈ as) →
      bs.Nodup → (∀ b, b ∈ bs → b ∉ keysOf c0.m) →
      bs.length ≤ as.length → j ≤ bs.length →
      (∀ x, x ∈ as.take j →
        x ∉ keysOf (putAll (getAll c0 as now2) (bs.take j) now2).m) ∧
      (∀ x, x ∈ as.drop j →
        x ∈ keysOf (putAll (getAll c0 as now2) (bs.take j) now2).m) ∧
      (∀ b, b ∈ bs.take j →
        b ∈ keysOf (putAll (getAll c0 as now2) (bs.take j) now2).m)) := by
  refine ⟨?_, access_then_insert_evicts, ?_⟩
  · simp only [LruCache.Get, hlk, hex, Bool.false_eq_true, if_false]
  · intro c0 as bs now2 j hre h0 hpos hfull hasnd hassub hcov hbsnd hbsfresh hlen hj
    have hwf0 := (reachable_wf hre).1
    have hqnil : leraseAll c0.lru as = [] := by
      rw [List.eq_nil_iff_forall_not_mem]
      intro x hx
      obtain ⟨hx1, hx2⟩ :=
        ((leraseAll_spec as c0.lru hwf0.lruNodup).2 x).mp hx
      exact hx2 (hcov x ((hwf0.lruMem x).mp hx1))
    have := access_then_insert_evicts c0 as bs now2 j hre h0 hpos hfull hasnd hassub
      hbsnd hbsfresh (by rw [hqnil]; simpa using hlen) hj
    rw [hqnil] at this
    simpa using this

theorem get_promotes_witness :
    Reachable cache2 ∧
    mlookup cache2.m "a" = some { value := "1", expiry := none } ∧
    EntryData.IsExpired { value := "1", expiry := none } 0 = false ∧
    cache2.Get "a" 0 =
      some ({ maxSize := 2, ttl := 0, lru := ["a", "b"], exp := ["b", "a"],
              m := [("b", { value := "2", expiry := none }),
                    ("a", { value := "1", expiry := none })] }, "1", true) ∧
    "b" ∉ keysOf (putAll (getAll cache2 ["b", "a"] 0) (List.take 1 ["c", "d"]) 0).m ∧
    "a" ∈ keysOf (putAll (getAll cache2 ["b", "a"] 0) (List.take 1 ["c", "d"]) 0).m ∧
    "c" ∈ keysOf (putAll (getAll cache2 ["b", "a"] 0) (List.take 1 ["c", "d"]) 0).m ∧
    "b" ∉ keysOf (putAll (getAll cache2 ["a"] 0) (List.take 1 ["c"]) 0).m ∧
    "a" ∈ keysOf (putAll (getAll cache2 ["a"] 0) (List.take 1 ["c"]) 0).m ∧
    "c" ∈ keysOf (putAll (getAll cache2 ["a"] 0) (List.take 1 ["c"]) 0).m :=
  ⟨cache2_reachable, rfl, rfl,
    (@get_promotes cache2 "a" { value := "1", expiry := none } 0
      cache2_reachable rfl rfl).1,
    ((@get_promotes cache2 "a" { value := "1", expiry := none } 0
      cache2_reachable rfl rfl).2.2 cache2 ["b", "a"] ["c", "d"] 0 1
      cache2_reachable rfl (by decide) (by decide) (by decide) (by decide) (by decide)
      (by decide) (by decide) (by decide) (by decide)).1 "b" (by decide),
    ((@get_promotes cache2 "a" { value := "1", expiry := none } 0
      cache2_reachable rfl rfl).2.2 cache2 ["b", "a"] ["c", "d"] 0 1
      cache2_reachable rfl (by decide) (by decide) (by decide) (by decide) (by decide)
      (by decide) (by decide) (by decide) (by decide)).2.1 "a" (by decide),
    ((@get_promotes cache2 "a" { value := "1", expiry := none } 0
      cache2_reachable rfl rfl).2.2 cache2 ["b", "a"] ["c", "d"] 0 1
      cache2_reachable rfl (by decide) (by decide) (by decide) (by decide) (by decide)
      (by decide) (by decide) (by decide) (by decide)).2.2 "c" (by decide),
    ((@get_promotes cache2 "a" { value := "1", expiry := none } 0
      cache2_reachable rfl rfl).2.1 cache2 ["a"] ["c"] 0 1
      cache2_reachable rfl (by decide) (by decide) (by decide) (by decide) (by decide)
      (by decide) (by decide) (by decide)).1 "b" (by decide),
    ((@get_promotes cache2 "a" { value := "1", expiry := none } 0
      cache2_reachable rfl rfl).2.1 cache2 ["a"] ["c"] 0 1
      cache2_reachable rfl (by decide) (by decide) (by decide) (by decide) (by decide)
      (by decide) (by decide) (by decide)).2.1 "a" (by decide),
    ((@get_promotes cache2 "a" { value := "1", expiry := none } 0
      cache2_reachable rfl rfl).2.1 cache2 ["a"] ["c"] 0 1
      cache2_reachable rfl (by decide) (by decide) (by decide) (by decide) (by decide)
      (by decide) (by decide) (by decide)).2.2 "c" (by decide)⟩
